import Mathlib

/-!
# MailHog websocket hub: registry and broadcast fan-out

A shallow embedding of `websockets/hub.go` (type `Hub`, `Hub.run`, `Hub.unregister`,
`Hub.Serve`, `Hub.Broadcast`).

* A connection is a pointer `*connection`; it is modelled by its identity, a natural number.
* The field `c.send` is a Go buffered channel.  A channel is modelled by the values it
  holds (head first), its capacity and its closed flag.  Sending on a closed channel and
  closing a closed channel panic in Go; both are modelled as errors of type `Panic`.
* The hub state is the key set of the map `h.connections` together with the state of the
  `send` channel of every connection.
* The three cases of the `select` in `Hub.run` are the functions `Hub.register`,
  `Hub.unregister` and `Hub.broadcast`; one iteration of the `for` loop is `Hub.step`.
* Go does not fix the iteration order of a map: the fan-out loop `Hub.broadcastOver` takes
  the order as an argument, and the theorems about a broadcast hold for every order.
* `Serve` is the only sender on `registerChan` and always makes the channel with
  `make(chan interface{}, 256)`, so a `nil` channel and an unbuffered channel do not occur.
* A take by a write loop that runs between two iterations of the fan-out loop touches one
  queue only and commutes with the deliveries to the other connections, so a broadcast is
  processed as one step.

The invariant `Hub.Inv` (each connection at most once in the registry, the queue of every
registered connection open) holds in every reachable state (`Reachable.hub_inv`); the
theorems about one step of the hub are stated for the states that satisfy it.

The origin check that `NewHub` gives to the upgrader is `NewHub.CheckOrigin`, and
`config/config.go` (`Config`, `DefaultConfig`, `Configure`) is embedded at the end of the
definitions.  A Go string is modelled by the list of its characters; `strings.Split`,
`strings.TrimSpace` and `unicode.IsSpace` follow the Go standard library.
-/

namespace MailHog

/-- The run-time panics that the channel operations used by the hub can raise. -/
inductive Panic where
  | sendOnClosed
  | closeOfClosed
  deriving DecidableEq, Repr

/-- A Go buffered channel: `buf` holds the queued values, the next one to be received
first; `cap` is the capacity given to `make`; `closed` records a `close`. -/
structure Chan (α : Type) where
  buf : List α
  cap : Nat
  closed : Bool
  deriving DecidableEq, Repr

/-- The channel `make(chan interface{}, n)`: empty, open, of capacity `n`. -/
def Chan.make {α : Type} (n : Nat) : Chan α :=
  { buf := [], cap := n, closed := false }

/-- The non-blocking send `select { case ch <- m: ... default: ... }`.
On a closed channel the send panics.  With a free slot the value is queued at the tail and
the result is `some` of the new channel.  On a full channel the `default` branch is taken
and the result is `none`. -/
def Chan.trySend {α : Type} (ch : Chan α) (m : α) : Except Panic (Option (Chan α)) :=
  if ch.closed then .error .sendOnClosed
  else if ch.buf.length < ch.cap then .ok (some { ch with buf := ch.buf ++ [m] })
  else .ok none

/-- The builtin `close(ch)`: panics on a closed channel, otherwise sets the closed flag and
keeps the queued values. -/
def Chan.close {α : Type} (ch : Chan α) : Except Panic (Chan α) :=
  if ch.closed then .error .closeOfClosed
  else .ok { ch with closed := true }

/-- A receive `<-ch` that does not wait: the head of the queue and the channel without it,
or `none` when nothing is queued. -/
def Chan.recv {α : Type} (ch : Chan α) : Option (α × Chan α) :=
  match ch.buf with
  | [] => none
  | x :: xs => some (x, { ch with buf := xs })

/-- Receives up to `n` values in a row and returns them in the order received, with the
channel that is left. -/
def Chan.recvN {α : Type} : Nat → Chan α → List α × Chan α
  | 0, ch => ([], ch)
  | n + 1, ch =>
    match ch.recv with
    | none => ([], ch)
    | some (x, ch1) => ((x :: (Chan.recvN n ch1).1), (Chan.recvN n ch1).2)

/-- The identity of a `*connection`. -/
abbrev Conn := Nat

/-- The state of a hub: `connections` lists the keys of the map `h.connections` (every
stored value is `true`), and `send c` is the state of the channel `c.send` of connection `c`. -/
structure Hub (α : Type) where
  connections : List Conn
  send : Conn → Chan α

/-- Replaces the state of the channel `c.send`. -/
def Hub.setSend {α : Type} (h : Hub α) (c : Conn) (ch : Chan α) : Hub α :=
  { h with send := fun d => if d = c then ch else h.send d }

/-- The hub made by `NewHub`: an empty registry.  The channel of every connection that will
be handed to the hub is the one `Serve` makes for it, `make(chan interface{}, 256)`. -/
def NewHub {α : Type} : Hub α :=
  { connections := [], send := fun _ => Chan.make 256 }

/-- The case `c := <-h.registerChan` of `run`: `h.connections[c] = true`. -/
def Hub.register {α : Type} (c : Conn) (h : Hub α) : Hub α :=
  if c ∈ h.connections then h else { h with connections := c :: h.connections }

/-- The method `unregister`: when `c` is a key of the map, `close(c.send)` and
`delete(h.connections, c)`; otherwise nothing. -/
def Hub.unregister {α : Type} (c : Conn) (h : Hub α) : Except Panic (Hub α) :=
  if c ∈ h.connections then
    match (h.send c).close with
    | .error e => .error e
    | .ok ch => .ok { connections := h.connections.filter (fun d => d ≠ c),
                      send := fun d => if d = c then ch else h.send d }
  else .ok h

/-- The body of the loop `for c := range h.connections` of `run` for one connection `c`:
a non-blocking send of `m` on `c.send`, and `h.unregister(c)` in the `default` branch. -/
def Hub.deliver {α : Type} (m : α) (c : Conn) (h : Hub α) : Except Panic (Hub α) :=
  match (h.send c).trySend m with
  | .error e => .error e
  | .ok (some ch) => .ok (h.setSend c ch)
  | .ok none => h.unregister c

/-- The loop `for c := range h.connections` of `run`, visiting the keys in the order
`order` (Go leaves the iteration order of a map unspecified).  A key that was deleted
before it is reached is not visited. -/
def Hub.broadcastOver {α : Type} (m : α) : List Conn → Hub α → Except Panic (Hub α)
  | [], h => .ok h
  | c :: rest, h =>
    if c ∈ h.connections then
      match h.deliver m c with
      | .error e => .error e
      | .ok h1 => Hub.broadcastOver m rest h1
    else Hub.broadcastOver m rest h

/-- The case `m := <-h.messages` of `run`, with the keys visited in the order of the list
(under the invariant every order gives the same state, `Hub.broadcastOver_of_inv`). -/
def Hub.broadcast {α : Type} (m : α) (h : Hub α) : Except Panic (Hub α) :=
  h.broadcastOver m h.connections

/-- Modelled from the spec: the write loop of a connection (`connection.go` is not among the
sources) "repeatedly takes the next queued payload (blocking wait, FIFO)".  One such take
on `c.send`; with nothing queued the loop waits and the state is unchanged. -/
def Hub.drain {α : Type} (c : Conn) (h : Hub α) : Hub α :=
  match (h.send c).recv with
  | none => h
  | some (_, ch) => h.setSend c ch

/-- The events that change the hub state: the three cases of the `select` in `run`, and a
take by the write loop of a connection. -/
inductive Event (α : Type) where
  | register (c : Conn)
  | unregister (c : Conn)
  | broadcast (m : α)
  | drain (c : Conn)
  deriving DecidableEq, Repr

/-- One event processed on a hub state. -/
def Hub.step {α : Type} (e : Event α) (h : Hub α) : Except Panic (Hub α) :=
  match e with
  | .register c => .ok (h.register c)
  | .unregister c => h.unregister c
  | .broadcast m => h.broadcast m
  | .drain c => .ok (h.drain c)

/-- The events of a list processed one after the other; a panic stops the run. -/
def Hub.run {α : Type} : List (Event α) → Hub α → Except Panic (Hub α)
  | [], h => .ok h
  | e :: es, h =>
    match h.step e with
    | .error p => .error p
    | .ok h1 => Hub.run es h1

/-- The event is a broadcast. -/
def Event.isBroadcast {α : Type} : Event α → Bool
  | .broadcast _ => true
  | _ => false

/-- A register event is admitted when the queue of the connection it carries is open
(`Serve` registers only a connection it has just created, never one that was unregistered
before); every other event is admitted. -/
def Event.admitted {α : Type} (e : Event α) (h : Hub α) : Bool :=
  match e with
  | .register c => !(h.send c).closed
  | _ => true

/-- Every event of the list is admitted in the state in which it is processed. -/
def Hub.admissible {α : Type} : List (Event α) → Hub α → Bool
  | [], _ => true
  | e :: es, h =>
    e.admitted h &&
      (match h.step e with
        | .error _ => true
        | .ok h1 => Hub.admissible es h1)

/-- Membership of `c` as the register and unregister events alone tell it: `b` says whether
`c` is a member before the events; the result says whether the last register or unregister
event that names `c` is a register (`b` when no event names `c`). -/
def registeredLast {α : Type} (c : Conn) : List (Event α) → Bool → Bool
  | [], b => b
  | .register d :: es, b => registeredLast c es (if d = c then true else b)
  | .unregister d :: es, b => registeredLast c es (if d = c then false else b)
  | .broadcast _ :: es, b => registeredLast c es b
  | .drain _ :: es, b => registeredLast c es b

/-- The queue of `c` has no free slot. -/
def Hub.full {α : Type} (h : Hub α) (c : Conn) : Prop :=
  ¬ (h.send c).buf.length < (h.send c).cap

instance {α : Type} (h : Hub α) (c : Conn) : Decidable (h.full c) :=
  inferInstanceAs (Decidable (¬ (h.send c).buf.length < (h.send c).cap))

/-- The invariant of the hub state: the registry holds each connection once, and the queue
of every registered connection is open. -/
def Hub.Inv {α : Type} (h : Hub α) : Prop :=
  h.connections.Nodup ∧ ∀ c ∈ h.connections, (h.send c).closed = false

instance {α : Type} (h : Hub α) : Decidable h.Inv :=
  inferInstanceAs
    (Decidable (h.connections.Nodup ∧ ∀ c ∈ h.connections, (h.send c).closed = false))

/-- A hub before any event: nothing registered, every connection newly created with an
empty open queue (of any capacity). -/
def Hub.Fresh {α : Type} (h : Hub α) : Prop :=
  h.connections = [] ∧ ∀ c, (h.send c).buf = [] ∧ (h.send c).closed = false

/-- The states the hub can be in: from a fresh hub, by register events that carry a
connection whose queue is open (`Serve` registers only connections it has just created),
unregister events, broadcasts in any iteration order of the registry, and takes by write
loops. -/
inductive Reachable {α : Type} : Hub α → Prop where
  | init (h : Hub α) : h.Fresh → Reachable h
  | register (h : Hub α) (c : Conn) :
      Reachable h → (h.send c).closed = false → Reachable (h.register c)
  | unregister (h h1 : Hub α) (c : Conn) :
      Reachable h → h.unregister c = .ok h1 → Reachable h1
  | broadcast (h h1 : Hub α) (m : α) (order : List Conn) :
      Reachable h → order.Perm h.connections → h.broadcastOver m order = .ok h1 →
      Reachable h1
  | drain (h : Hub α) (c : Conn) : Reachable h → Reachable (h.drain c)

/-- The state a broadcast of `m` over `order` leads to when every visited connection is
registered with an open queue: a visited connection with a free slot gets `m` at the tail
of its queue, a visited connection with a full queue is closed and removed. -/
def Hub.fanOut {α : Type} (m : α) (order : List Conn) (h : Hub α) : Hub α :=
  { connections := h.connections.filter (fun d => ¬ (d ∈ order ∧ h.full d)),
    send := fun d =>
      if d ∈ order then
        if (h.send d).buf.length < (h.send d).cap then
          { h.send d with buf := (h.send d).buf ++ [m] }
        else { h.send d with closed := true }
      else h.send d }


/-! ## The origin check of the upgrader -/

/-- A Go string, modelled by the list of its characters. -/
abbrev GoString := List Char

/-- The function `unicode.IsSpace`: the Unicode characters with the White_Space property. -/
def unicode.IsSpace (r : Char) : Bool :=
  let n := r.toNat
  (0x09 ≤ n && n ≤ 0x0d) || n == 0x20 || n == 0x85 || n == 0xa0 || n == 0x1680 ||
    (0x2000 ≤ n && n ≤ 0x200a) || n == 0x2028 || n == 0x2029 || n == 0x202f ||
    n == 0x205f || n == 0x3000

/-- The function `strings.TrimSpace`: the string without its leading and trailing white
space. -/
def strings.TrimSpace (s : GoString) : GoString :=
  ((s.dropWhile unicode.IsSpace).reverse.dropWhile unicode.IsSpace).reverse

/-- The function `strings.Split` for a separator of one character: the substrings between
the separators, in order; a string without separator gives one substring, itself. -/
def strings.Split (s : GoString) (sep : Char) : List GoString :=
  match s with
  | [] => [[]]
  | c :: cs =>
    if c = sep then [] :: strings.Split cs sep
    else
      match strings.Split cs sep with
      | [] => [[c]]
      | e :: es => (c :: e) :: es

/-- The part of a `*http.Request` the origin check reads: the values of the header
`Origin`, none when the header is absent. -/
structure Request where
  originValues : List GoString

/-- The call `r.Header.Get("Origin")`: the first value of the header, the empty string when
there is none. -/
def Request.originHeader (r : Request) : GoString :=
  match r.originValues with
  | [] => []
  | v :: _ => v

/-- The loop `for _, allowed := range allowedOrigins` of `CheckOrigin`: `true` at the first
entry that equals `origin` once trimmed, `false` when the entries are exhausted. -/
def NewHub.originListed (origin : GoString) : List GoString → Bool
  | [] => false
  | allowed :: rest =>
    if strings.TrimSpace allowed = origin then true else NewHub.originListed origin rest

/-- The function `CheckOrigin` that `NewHub(corsOrigin)` gives to the upgrader. -/
def NewHub.CheckOrigin (corsOrigin : GoString) (r : Request) : Bool :=
  if corsOrigin.length = 0 then true
  else
    let origin := r.originHeader
    if origin.length = 0 then true
    else NewHub.originListed origin (strings.Split corsOrigin ',')

/-! ## Package config -/

/-- The struct `Config`. -/
structure Config where
  AuthFile : GoString
  AuthBasic : GoString
  WebPath : GoString
  deriving DecidableEq, Repr

/-- The function `DefaultConfig`; the field `WebPath` has the zero value. -/
def DefaultConfig : Config :=
  { AuthFile := [], AuthBasic := [], WebPath := [] }

/-- The run-time panic of an index expression out of range. -/
inductive IndexPanic where
  | outOfRange
  deriving DecidableEq, Repr

/-- The comparison `s[0] == b` for an ASCII character `b`.  Indexing the empty string
panics.  The first byte of a string is the ASCII byte `b` exactly when its first character
is `b`. -/
def firstByteIs (s : GoString) (b : Char) : Except IndexPanic Bool :=
  match s with
  | [] => .error .outOfRange
  | c :: _ => .ok (c == b)

/-- The function `Configure` on the package variable `cfg`: the value of `cfg` after the
call, which is also what the returned pointer refers to.  The operator `&&` evaluates its
right operand only when the left one holds. -/
def Configure (cfg : Config) : Except IndexPanic Config :=
  if cfg.WebPath ≠ [] then
    match firstByteIs cfg.WebPath '/' with
    | .error e => .error e
    | .ok isSlash =>
      if !isSlash then .ok { cfg with WebPath := '/' :: cfg.WebPath } else .ok cfg
  else .ok cfg

/-- A configuration with the web path "mailhog". -/
def mailhogConfig : Config :=
  { AuthFile := "auth.txt".toList, AuthBasic := [], WebPath := "mailhog".toList }

/-! ## Concrete hub states -/

/-- Three connections 1, 2, 3 registered, queues of capacity 1, all empty. -/
def threeIdle : Hub String :=
  { connections := [1, 2, 3], send := fun _ => Chan.make 1 }

/-- Three connections 1, 2, 3 registered, queues of capacity 1; connection 2 has not
taken the payload "x" from its queue, the queues of 1 and 3 are empty. -/
def threeStalled : Hub String :=
  { connections := [1, 2, 3],
    send := fun c => if c = 2 then { buf := ["x"], cap := 1, closed := false } else Chan.make 1 }

/-- Connections 4 and 5 registered, queues of capacity 2; connection 5 holds "x"; the
unregistered connection 2 has a full queue of capacity 1. -/
def twoOther : Hub String :=
  { connections := [5, 4],
    send := fun c =>
      if c = 5 then { buf := ["x"], cap := 2, closed := false }
      else if c = 2 then { buf := ["x"], cap := 1, closed := false }
      else Chan.make 2 }

/-- A fresh hub whose connections have queues of capacity 1. -/
def freshOne : Hub String :=
  { connections := [], send := fun _ => Chan.make 1 }

/-- The state of `freshOne` after connections 1 and 2 were registered, "x" was broadcast,
and the write loop of connection 1 took "x" from its queue: the queue of 2 is full. -/
def stalledTwo : Hub String :=
  ((((freshOne.register 1).register 2).fanOut "x" [2, 1]).drain 1)

/-- The hub made by `NewHub` after a connection 7 made by `Serve` (queue of capacity 256)
was registered. -/
def servedSeven : Hub String :=
  (NewHub : Hub String).register 7

/-- Three connections registered, queues of capacity 1: 1 is empty, 2 is full, and 3 is
full with its channel closed (a state the hub does not reach). -/
def threeBroken : Hub String :=
  { connections := [1, 2, 3],
    send := fun c =>
      if c = 2 then { buf := ["x"], cap := 1, closed := false }
      else if c = 3 then { buf := ["x"], cap := 1, closed := true }
      else Chan.make 1 }

/-! ## Channel operations -/

theorem Chan.trySend_open_free {α : Type} (ch : Chan α) (m : α) (ho : ch.closed = false)
    (hf : ch.buf.length < ch.cap) :
    ch.trySend m = .ok (some { ch with buf := ch.buf ++ [m] }) := by
  simp [Chan.trySend, ho, hf]

theorem Chan.trySend_open_full {α : Type} (ch : Chan α) (m : α) (ho : ch.closed = false)
    (hf : ¬ ch.buf.length < ch.cap) : ch.trySend m = .ok none := by
  simp [Chan.trySend, ho, hf]

theorem Chan.trySend_closed {α : Type} (ch : Chan α) (m : α) (hc : ch.closed = true) :
    ch.trySend m = .error .sendOnClosed := by
  simp [Chan.trySend, hc]

theorem Chan.close_open {α : Type} (ch : Chan α) (ho : ch.closed = false) :
    ch.close = .ok { ch with closed := true } := by
  simp [Chan.close, ho]

theorem Chan.close_closed {α : Type} (ch : Chan α) (hc : ch.closed = true) :
    ch.close = .error .closeOfClosed := by
  simp [Chan.close, hc]

theorem Chan.recvN_length {α : Type} (ch : Chan α) :
    ch.recvN ch.buf.length = (ch.buf, { ch with buf := [] }) := by
  obtain ⟨buf, cap, closed⟩ := ch
  induction buf with
  | nil => simp [Chan.recvN]
  | cons x xs ih => simp [Chan.recvN, Chan.recv, ih]

/-! ## Unregister -/

theorem Hub.unregister_absent {α : Type} (c : Conn) (h : Hub α) (hc : c ∉ h.connections) :
    h.unregister c = .ok h := by
  simp [Hub.unregister, hc]

theorem Hub.unregister_present {α : Type} (c : Conn) (h : Hub α) (hc : c ∈ h.connections)
    (ho : (h.send c).closed = false) :
    h.unregister c =
      .ok { connections := h.connections.filter (fun d => d ≠ c),
            send := fun d => if d = c then { h.send c with closed := true } else h.send d } := by
  simp [Hub.unregister, hc, Chan.close_open _ ho]

theorem Hub.unregister_present_closed {α : Type} (c : Conn) (h : Hub α)
    (hc : c ∈ h.connections) (ho : (h.send c).closed = true) :
    h.unregister c = .error .closeOfClosed := by
  simp [Hub.unregister, hc, Chan.close_closed _ ho]

/-! ## One delivery -/

theorem Hub.deliver_free {α : Type} (m : α) (c : Conn) (h : Hub α)
    (ho : (h.send c).closed = false) (hf : (h.send c).buf.length < (h.send c).cap) :
    h.deliver m c = .ok (h.setSend c { h.send c with buf := (h.send c).buf ++ [m] }) := by
  simp [Hub.deliver, Chan.trySend_open_free _ m ho hf]

theorem Hub.deliver_full {α : Type} (m : α) (c : Conn) (h : Hub α)
    (ho : (h.send c).closed = false) (hf : ¬ (h.send c).buf.length < (h.send c).cap) :
    h.deliver m c = h.unregister c := by
  simp [Hub.deliver, Chan.trySend_open_full _ m ho hf]

/-! ## The fan-out loop -/

theorem Hub.fanOut_nil {α : Type} (m : α) (h : Hub α) : h.fanOut m [] = h := by
  cases h
  simp [Hub.fanOut]

theorem Hub.broadcastOver_eq_fanOut {α : Type} (m : α) (order : List Conn) :
    ∀ h : Hub α, order.Nodup →
      (∀ c ∈ order, c ∈ h.connections ∧ (h.send c).closed = false) →
      h.broadcastOver m order = .ok (h.fanOut m order) := by
  induction order with
  | nil => intro h _ _; simp [Hub.broadcastOver, Hub.fanOut_nil]
  | cons c rest ih =>
    intro h hnd hall
    have hcr : c ∉ rest := (List.nodup_cons.mp hnd).1
    have hrest : rest.Nodup := (List.nodup_cons.mp hnd).2
    obtain ⟨hcm, hco⟩ := hall c (List.mem_cons_self c rest)
    have hne : ∀ d ∈ rest, d ≠ c := fun d hd hdc => hcr (hdc ▸ hd)
    by_cases hf : (h.send c).buf.length < (h.send c).cap
    · -- free slot: the payload is queued
      have h1 := ih (h.setSend c { h.send c with buf := (h.send c).buf ++ [m] }) hrest
        (by
          intro d hd
          have := hall d (List.mem_cons_of_mem c hd)
          simpa [Hub.setSend, hne d hd] using this)
      simp only [Hub.broadcastOver, hcm, if_true, Hub.deliver_free m c h hco hf, h1]
      congr 1
      simp only [Hub.fanOut, Hub.setSend, Hub.full]
      congr 1
      · apply List.filter_congr
        intro d _
        by_cases hdc : d = c
        · subst hdc; simp [hcr, hf]
        · simp [hdc]
      · funext d
        by_cases hdc : d = c
        · subst hdc; simp [hcr, hf]
        · simp [hdc]
    · -- full queue: the connection is unregistered
      have h1 := ih
        { connections := h.connections.filter (fun d => d ≠ c),
          send := fun d => if d = c then { h.send c with closed := true } else h.send d }
        hrest
        (by
          intro d hd
          have := hall d (List.mem_cons_of_mem c hd)
          simpa [hne d hd, List.mem_filter] using this)
      simp only [Hub.broadcastOver, hcm, if_true, Hub.deliver_full m c h hco hf,
        Hub.unregister_present c h hcm hco, h1]
      congr 1
      simp only [Hub.fanOut, Hub.full]
      congr 1
      · rw [List.filter_filter]
        apply List.filter_congr
        intro d _
        by_cases hdc : d = c
        · subst hdc; simp [hf]
        · simp [hdc]
      · funext d
        by_cases hdc : d = c
        · subst hdc; simp [hcr, hf]
        · simp [hdc]


theorem Hub.fanOut_congr {α : Type} (m : α) (o1 o2 : List Conn) (h : Hub α)
    (hmem : ∀ d, d ∈ o1 ↔ d ∈ o2) : h.fanOut m o1 = h.fanOut m o2 := by
  simp only [Hub.fanOut, hmem]

/-- Under the invariant the loop ends without a panic, in the state `fanOut`, whatever the
iteration order of the registry. -/
theorem Hub.broadcastOver_of_inv {α : Type} (m : α) (order : List Conn) (h : Hub α)
    (hinv : h.Inv) (hp : order.Perm h.connections) :
    h.broadcastOver m order = .ok (h.fanOut m h.connections) := by
  rw [Hub.broadcastOver_eq_fanOut m order h (hp.nodup_iff.mpr hinv.1)
    (fun c hc => ⟨hp.mem_iff.mp hc, hinv.2 c (hp.mem_iff.mp hc)⟩)]
  rw [Hub.fanOut_congr m order h.connections h (fun d => hp.mem_iff)]

theorem Hub.broadcast_of_inv {α : Type} (m : α) (h : Hub α) (hinv : h.Inv) :
    h.broadcast m = .ok (h.fanOut m h.connections) :=
  Hub.broadcastOver_of_inv m h.connections h hinv (List.Perm.refl _)

theorem Hub.mem_fanOut {α : Type} (m : α) (h : Hub α) (c : Conn) :
    c ∈ (h.fanOut m h.connections).connections ↔ c ∈ h.connections ∧ ¬ h.full c := by
  simp only [Hub.fanOut, List.mem_filter, decide_eq_true_eq]
  constructor
  · rintro ⟨hc, hn⟩
    exact ⟨hc, fun hf => hn ⟨hc, hf⟩⟩
  · rintro ⟨hc, hn⟩
    exact ⟨hc, fun hf => hn hf.2⟩

theorem Hub.fanOut_send_free {α : Type} (m : α) (h : Hub α) (c : Conn)
    (hc : c ∈ h.connections) (hf : ¬ h.full c) :
    (h.fanOut m h.connections).send c = { h.send c with buf := (h.send c).buf ++ [m] } := by
  have hf1 : (h.send c).buf.length < (h.send c).cap := not_not.mp hf
  simp [Hub.fanOut, hc, hf1]

theorem Hub.fanOut_send_full {α : Type} (m : α) (h : Hub α) (c : Conn)
    (hc : c ∈ h.connections) (hf : h.full c) :
    (h.fanOut m h.connections).send c = { h.send c with closed := true } := by
  have hf1 : ¬ (h.send c).buf.length < (h.send c).cap := hf
  simp [Hub.fanOut, hc, hf1]

theorem Hub.fanOut_send_absent {α : Type} (m : α) (h : Hub α) (c : Conn)
    (hc : c ∉ h.connections) : (h.fanOut m h.connections).send c = h.send c := by
  simp [Hub.fanOut, hc]

/-! ## The invariant is kept by every event -/

theorem Hub.fanOut_inv {α : Type} (m : α) (h : Hub α) (hinv : h.Inv) :
    (h.fanOut m h.connections).Inv := by
  refine ⟨?_, ?_⟩
  · exact hinv.1.filter _
  · intro c hc
    obtain ⟨hcm, hnf⟩ := (Hub.mem_fanOut m h c).mp hc
    rw [Hub.fanOut_send_free m h c hcm hnf]
    exact hinv.2 c hcm

theorem Hub.register_inv {α : Type} (c : Conn) (h : Hub α) (hinv : h.Inv)
    (ho : (h.send c).closed = false) : (h.register c).Inv := by
  unfold Hub.register
  split
  · exact hinv
  · rename_i hc
    refine ⟨List.nodup_cons.mpr ⟨hc, hinv.1⟩, ?_⟩
    intro d hd
    rcases List.mem_cons.mp hd with hdc | hd
    · rw [hdc]; exact ho
    · exact hinv.2 d hd

theorem Hub.unregister_of_inv {α : Type} (c : Conn) (h : Hub α) (hinv : h.Inv) :
    ∃ h1, h.unregister c = .ok h1 ∧ h1.Inv ∧
      h1.connections = h.connections.filter (fun d => d ≠ c) ∧
      ∀ d, h1.send d =
        if d = c ∧ c ∈ h.connections then { h.send c with closed := true } else h.send d := by
  by_cases hc : c ∈ h.connections
  · refine ⟨_, Hub.unregister_present c h hc (hinv.2 c hc), ⟨hinv.1.filter _, ?_⟩, rfl, ?_⟩
    · intro d hd
      have hd1 := List.mem_filter.mp hd
      have hdc : d ≠ c := by simpa using hd1.2
      simpa [hdc] using hinv.2 d hd1.1
    · intro d
      by_cases hdc : d = c
      · simp [hdc, hc]
      · simp [hdc]
  · refine ⟨h, Hub.unregister_absent c h hc, hinv, ?_, ?_⟩
    · symm
      apply List.filter_eq_self.mpr
      intro d hd
      have : d ≠ c := fun hdc => hc (hdc ▸ hd)
      simpa using this
    · intro d
      simp [hc]

theorem Hub.drain_connections {α : Type} (c : Conn) (h : Hub α) :
    (h.drain c).connections = h.connections := by
  unfold Hub.drain
  split <;> simp [Hub.setSend]

theorem Hub.drain_closed {α : Type} (c d : Conn) (h : Hub α) :
    ((h.drain c).send d).closed = (h.send d).closed := by
  unfold Hub.drain
  split
  · rfl
  · rename_i x ch hrecv
    by_cases hdc : d = c
    · subst hdc
      simp only [Hub.setSend, if_true]
      unfold Chan.recv at hrecv
      split at hrecv
      · cases hrecv
      · cases hrecv; rfl
    · simp [Hub.setSend, hdc]

theorem Hub.drain_inv {α : Type} (c : Conn) (h : Hub α) (hinv : h.Inv) : (h.drain c).Inv := by
  refine ⟨by rw [Hub.drain_connections]; exact hinv.1, ?_⟩
  intro d hd
  rw [Hub.drain_connections] at hd
  rw [Hub.drain_closed]
  exact hinv.2 d hd

theorem Hub.fresh_inv {α : Type} {h : Hub α} (hf : h.Fresh) : h.Inv := by
  refine ⟨by rw [hf.1]; exact List.nodup_nil, ?_⟩
  intro c hc
  rw [hf.1] at hc
  cases hc

theorem Reachable.hub_inv {α : Type} {h : Hub α} (hr : Reachable h) : h.Inv := by
  induction hr with
  | init h hf => exact Hub.fresh_inv hf
  | register h c _ ho ih => exact Hub.register_inv c h ih ho
  | unregister h h1 c _ hu ih =>
    obtain ⟨h2, hu2, hinv2, _⟩ := Hub.unregister_of_inv c h ih
    rw [hu] at hu2
    cases hu2
    exact hinv2
  | broadcast h h1 m order _ hp hb ih =>
    rw [Hub.broadcastOver_of_inv m order h ih hp] at hb
    cases hb
    exact Hub.fanOut_inv m h ih
  | drain h c _ ih => exact Hub.drain_inv c h ih


/-! ## Broadcast -/

/-- C1: in a hub state that satisfies the invariant (as every reachable state does), when
the queue of a registered subscriber `c` has no free slot, a broadcast of `m` (in any
iteration order of the registry) ends without a panic; afterwards `c` is not in the
registry, the queue of `c` is closed and holds exactly what it held before (no copy of
`m`), and every registered subscriber with a free slot is still registered, open, and has
`m` at the tail of its queue. -/
theorem broadcast_evicts_full_subscriber {α : Type} (h : Hub α) (m : α) (order : List Conn)
    (c : Conn) (hinv : h.Inv) (hp : order.Perm h.connections) (hc : c ∈ h.connections)
    (hfull : h.full c) :
    ∃ h1, h.broadcastOver m order = .ok h1 ∧ c ∉ h1.connections ∧
      (h1.send c).closed = true ∧ (h1.send c).buf = (h.send c).buf ∧
      ∀ d ∈ h.connections, ¬ h.full d →
        d ∈ h1.connections ∧ (h1.send d).buf = (h.send d).buf ++ [m] ∧
          (h1.send d).closed = false := by
  refine ⟨_, Hub.broadcastOver_of_inv m order h hinv hp, ?_, ?_, ?_, ?_⟩
  · intro hmem
    exact ((Hub.mem_fanOut m h c).mp hmem).2 hfull
  · rw [Hub.fanOut_send_full m h c hc hfull]
  · rw [Hub.fanOut_send_full m h c hc hfull]
  · intro d hd hnf
    refine ⟨(Hub.mem_fanOut m h d).mpr ⟨hd, hnf⟩, ?_, ?_⟩
    · rw [Hub.fanOut_send_free m h d hd hnf]
    · rw [Hub.fanOut_send_free m h d hd hnf]
      exact hinv.2 d hd

theorem broadcast_evicts_full_subscriber_witness :
    threeStalled.Inv ∧ threeStalled.full 2 ∧
    ∃ h1, threeStalled.broadcastOver "y" [3, 1, 2] = .ok h1 ∧ 2 ∉ h1.connections ∧
      (h1.send 2).closed = true ∧ (h1.send 2).buf = (threeStalled.send 2).buf ∧
      ∀ d ∈ threeStalled.connections, ¬ threeStalled.full d →
        d ∈ h1.connections ∧ (h1.send d).buf = (threeStalled.send d).buf ++ ["y"] ∧
          (h1.send d).closed = false :=
  ⟨by decide, by decide,
    broadcast_evicts_full_subscriber threeStalled "y" [3, 1, 2] 2 (by decide) (by decide)
      (by decide) (by decide)⟩

/-- C2: in a hub state that satisfies the invariant, when no registered subscriber has a
full queue, a broadcast of `m` (in any iteration order) ends without a panic, leaves the
registry as it was, turns the queue of each registered subscriber into its old contents
followed by one `m`, and leaves every other connection untouched. -/
theorem broadcast_appends_to_all {α : Type} (h : Hub α) (m : α) (order : List Conn)
    (hinv : h.Inv) (hp : order.Perm h.connections)
    (hfree : ∀ c ∈ h.connections, ¬ h.full c) :
    ∃ h1, h.broadcastOver m order = .ok h1 ∧ h1.connections = h.connections ∧
      (∀ c ∈ h.connections, h1.send c = { h.send c with buf := (h.send c).buf ++ [m] }) ∧
      ∀ c, c ∉ h.connections → h1.send c = h.send c := by
  refine ⟨_, Hub.broadcastOver_of_inv m order h hinv hp, ?_, ?_, ?_⟩
  · simp only [Hub.fanOut]
    apply List.filter_eq_self.mpr
    intro d hd
    have := hfree d hd
    simp [this]
  · intro c hc
    exact Hub.fanOut_send_free m h c hc (hfree c hc)
  · intro c hc
    exact Hub.fanOut_send_absent m h c hc

theorem broadcast_appends_to_all_witness :
    threeIdle.Inv ∧
    ∃ h1, threeIdle.broadcastOver "x" [2, 3, 1] = .ok h1 ∧
      h1.connections = threeIdle.connections ∧
      (∀ c ∈ threeIdle.connections,
        h1.send c = { threeIdle.send c with buf := (threeIdle.send c).buf ++ ["x"] }) ∧
      ∀ c, c ∉ threeIdle.connections → h1.send c = threeIdle.send c :=
  ⟨by decide,
    broadcast_appends_to_all threeIdle "x" [2, 3, 1] (by decide) (by decide) (by decide)⟩


theorem Hub.run_broadcasts {α : Type} (c : Conn) (ps : List α) :
    ∀ h : Hub α, h.Inv → c ∈ h.connections →
      (h.send c).buf.length + ps.length ≤ (h.send c).cap →
      ∃ h1, h.run (ps.map Event.broadcast) = .ok h1 ∧ h1.Inv ∧ c ∈ h1.connections ∧
        h1.send c = { h.send c with buf := (h.send c).buf ++ ps } := by
  induction ps with
  | nil =>
    intro h hinv hc _
    exact ⟨h, rfl, hinv, hc, by simp⟩
  | cons p ps ih =>
    intro h hinv hc hlen
    have hnf : ¬ h.full c := by
      simp only [Hub.full, not_not, List.length_cons] at hlen ⊢
      omega
    have hsend := Hub.fanOut_send_free p h c hc hnf
    obtain ⟨h1, hrun, hinv1, hc1, hs1⟩ := ih (h.fanOut p h.connections)
      (Hub.fanOut_inv p h hinv) ((Hub.mem_fanOut p h c).mpr ⟨hc, hnf⟩)
      (by
        rw [hsend]
        simp only [List.length_append, List.length_cons, List.length_nil] at hlen ⊢
        omega)
    refine ⟨h1, ?_, hinv1, hc1, ?_⟩
    · simp only [List.map_cons, Hub.run, Hub.step, Hub.broadcast_of_inv p h hinv]
      exact hrun
    · rw [hs1, hsend]
      simp

/-- C3: in a hub state that satisfies the invariant, for a registered subscriber `c` and
payloads `ps` that fit in the free space of the queue of `c`, processing the broadcasts of
`ps` one after the other ends without a panic, leaves `c` registered with a queue equal to
its previous contents followed by `ps` in that order, and taking the values out of that
queue yields the previous contents followed by `ps`, in that order. -/
theorem broadcasts_keep_submission_order {α : Type} (h : Hub α) (c : Conn) (ps : List α)
    (hinv : h.Inv) (hc : c ∈ h.connections)
    (hfit : (h.send c).buf.length + ps.length ≤ (h.send c).cap) :
    ∃ h1, h.run (ps.map Event.broadcast) = .ok h1 ∧ c ∈ h1.connections ∧
      (h1.send c).buf = (h.send c).buf ++ ps ∧
      ((h1.send c).recvN (h1.send c).buf.length).1 = (h.send c).buf ++ ps ∧
      ((h1.send c).recvN (h1.send c).buf.length).2.buf = [] := by
  obtain ⟨h1, hrun, _, hc1, hs1⟩ := Hub.run_broadcasts c ps h hinv hc hfit
  refine ⟨h1, hrun, hc1, by rw [hs1], ?_, ?_⟩
  · rw [Chan.recvN_length, hs1]
  · rw [Chan.recvN_length]

theorem broadcasts_keep_submission_order_witness :
    twoOther.Inv ∧ 4 ∈ twoOther.connections ∧
    ∃ h1, twoOther.run (["y", "z"].map Event.broadcast) = .ok h1 ∧ 4 ∈ h1.connections ∧
      (h1.send 4).buf = (twoOther.send 4).buf ++ ["y", "z"] ∧
      ((h1.send 4).recvN (h1.send 4).buf.length).1 = (twoOther.send 4).buf ++ ["y", "z"] ∧
      ((h1.send 4).recvN (h1.send 4).buf.length).2.buf = [] :=
  ⟨by decide, by decide,
    broadcasts_keep_submission_order twoOther 4 ["y", "z"] (by decide) (by decide)
      (by decide)⟩


/-! ## Runs of events -/

theorem Hub.unregister_ok_connections {α : Type} (c : Conn) (h h1 : Hub α)
    (hu : h.unregister c = .ok h1) :
    h1.connections = h.connections.filter (fun d => d ≠ c) := by
  unfold Hub.unregister at hu
  split at hu
  · split at hu
    · cases hu
    · cases hu; rfl
  · rename_i hc
    cases hu
    symm
    apply List.filter_eq_self.mpr
    intro d hd
    have : d ≠ c := fun hdc => hc (hdc ▸ hd)
    simpa using this

theorem Hub.mem_register {α : Type} (c d : Conn) (h : Hub α) :
    d ∈ (h.register c).connections ↔ d = c ∨ d ∈ h.connections := by
  unfold Hub.register
  split
  · rename_i hc
    constructor
    · exact Or.inr
    · rintro (hdc | hd)
      · rw [hdc]; exact hc
      · exact hd
  · simp

theorem Hub.register_send {α : Type} (c : Conn) (h : Hub α) :
    (h.register c).send = h.send := by
  unfold Hub.register
  split <;> rfl

theorem Hub.step_of_inv {α : Type} (e : Event α) (h : Hub α) (hinv : h.Inv)
    (ha : e.admitted h = true) : ∃ h1, h.step e = .ok h1 ∧ h1.Inv := by
  cases e with
  | register c =>
    refine ⟨_, rfl, Hub.register_inv c h hinv ?_⟩
    simpa [Event.admitted] using ha
  | unregister c =>
    obtain ⟨h1, hu, hinv1, _⟩ := Hub.unregister_of_inv c h hinv
    exact ⟨h1, hu, hinv1⟩
  | broadcast m => exact ⟨_, Hub.broadcast_of_inv m h hinv, Hub.fanOut_inv m h hinv⟩
  | drain c => exact ⟨_, rfl, Hub.drain_inv c h hinv⟩

theorem Hub.step_closed {α : Type} (e : Event α) (h h1 : Hub α) (c : Conn) (hinv : h.Inv)
    (hs : h.step e = .ok h1) (hc : (h.send c).closed = true) :
    (h1.send c).closed = true := by
  cases e with
  | register d =>
    simp only [Hub.step, Except.ok.injEq] at hs
    rw [← hs, Hub.register_send]
    exact hc
  | unregister d =>
    obtain ⟨h2, hu, _, _, hsend⟩ := Hub.unregister_of_inv d h hinv
    simp only [Hub.step] at hs
    rw [hs] at hu
    cases hu
    rw [hsend c]
    split
    · rfl
    · exact hc
  | broadcast m =>
    simp only [Hub.step, Hub.broadcast_of_inv m h hinv, Except.ok.injEq] at hs
    have habs : c ∉ h.connections := by
      intro hmem
      rw [hinv.2 c hmem] at hc
      cases hc
    rw [← hs, Hub.fanOut_send_absent m h c habs]
    exact hc
  | drain d =>
    simp only [Hub.step, Except.ok.injEq] at hs
    rw [← hs, Hub.drain_closed]
    exact hc

theorem Hub.admissible_cons {α : Type} (e : Event α) (es : List (Event α)) (h h1 : Hub α)
    (ha : h.admissible (e :: es) = true) (hs : h.step e = .ok h1) :
    e.admitted h = true ∧ h1.admissible es = true := by
  simp only [Hub.admissible, hs, Bool.and_eq_true] at ha
  exact ha

theorem Hub.run_of_inv {α : Type} (es : List (Event α)) :
    ∀ h : Hub α, h.Inv → h.admissible es = true →
      ∃ h1, h.run es = .ok h1 ∧ h1.Inv ∧
        ∀ c, (h.send c).closed = true → (h1.send c).closed = true := by
  induction es with
  | nil => intro h hinv _; exact ⟨h, rfl, hinv, fun _ hc => hc⟩
  | cons e es ih =>
    intro h hinv ha
    have hadm : e.admitted h = true := by
      simp only [Hub.admissible, Bool.and_eq_true] at ha
      exact ha.1
    obtain ⟨h1, hs, hinv1⟩ := Hub.step_of_inv e h hinv hadm
    obtain ⟨h2, hrun, hinv2, hcl⟩ := ih h1 hinv1 (Hub.admissible_cons e es h h1 ha hs).2
    refine ⟨h2, ?_, hinv2, ?_⟩
    · simp only [Hub.run, hs]
      exact hrun
    · intro c hc
      exact hcl c (Hub.step_closed e h h1 c hinv hs hc)


theorem registeredLast_step {α : Type} (c : Conn) (e : Event α) (es : List (Event α))
    (h h1 : Hub α) (hs : h.step e = .ok h1) (hnb : e.isBroadcast = false) :
    registeredLast c (e :: es) (decide (c ∈ h.connections)) =
      registeredLast c es (decide (c ∈ h1.connections)) := by
  cases e with
  | register d =>
    simp only [Hub.step, Except.ok.injEq] at hs
    subst hs
    simp only [registeredLast]
    congr 1
    by_cases hdc : d = c
    · simp [hdc, Hub.mem_register]
    · have hcd : ¬ c = d := fun hcd => hdc hcd.symm
      simp [hdc, hcd, Hub.mem_register]
  | unregister d =>
    simp only [Hub.step] at hs
    rw [Hub.unregister_ok_connections d h h1 hs]
    simp only [registeredLast]
    congr 1
    by_cases hdc : d = c
    · simp [hdc, List.mem_filter]
    · have hcd : ¬ c = d := fun hcd => hdc hcd.symm
      simp [hdc, hcd, List.mem_filter]
  | broadcast m => simp [Event.isBroadcast] at hnb
  | drain d =>
    simp only [Hub.step, Except.ok.injEq] at hs
    subst hs
    simp only [registeredLast, Hub.drain_connections]

theorem Hub.run_membership_plain {α : Type} (c : Conn) (es : List (Event α)) :
    ∀ h h1 : Hub α, (∀ e ∈ es, e.isBroadcast = false) → h.run es = .ok h1 →
      (c ∈ h1.connections ↔ registeredLast c es (decide (c ∈ h.connections)) = true) := by
  induction es with
  | nil =>
    intro h h1 _ hrun
    simp only [Hub.run, Except.ok.injEq] at hrun
    subst hrun
    simp [registeredLast]
  | cons e es ih =>
    intro h h1 hnb hrun
    simp only [Hub.run] at hrun
    split at hrun
    · cases hrun
    · rename_i h2 hs
      rw [registeredLast_step c e es h h2 hs (hnb e (List.mem_cons_self e es))]
      exact ih h2 h1 (fun e1 he1 => hnb e1 (List.mem_cons_of_mem e he1)) hrun

theorem Hub.run_membership {α : Type} (es : List (Event α)) :
    ∀ h : Hub α, h.Inv → h.admissible es = true →
      ∃ h1, h.run es = .ok h1 ∧ h1.Inv ∧
        ∀ c, c ∈ h1.connections ↔
          registeredLast c es (decide (c ∈ h.connections)) = true ∧
            (h1.send c).closed = false := by
  induction es with
  | nil =>
    intro h hinv _
    refine ⟨h, rfl, hinv, ?_⟩
    intro c
    simp only [registeredLast, decide_eq_true_eq]
    exact ⟨fun hc => ⟨hc, hinv.2 c hc⟩, fun hc => hc.1⟩
  | cons e es ih =>
    intro h hinv ha
    have hadm : e.admitted h = true := by
      simp only [Hub.admissible, Bool.and_eq_true] at ha
      exact ha.1
    obtain ⟨h1, hs, hinv1⟩ := Hub.step_of_inv e h hinv hadm
    have ha1 := (Hub.admissible_cons e es h h1 ha hs).2
    obtain ⟨h2, hrun, hinv2, hmem⟩ := ih h1 hinv1 ha1
    obtain ⟨h3, hrun3, _, hcl⟩ := Hub.run_of_inv es h1 hinv1 ha1
    rw [hrun] at hrun3
    cases hrun3
    refine ⟨h2, ?_, hinv2, ?_⟩
    · simp only [Hub.run, hs]
      exact hrun
    · intro c
      rw [hmem c]
      by_cases hb : e.isBroadcast = false
      · rw [registeredLast_step c e es h h1 hs hb]
      · cases e with
        | register d => simp [Event.isBroadcast] at hb
        | unregister d => simp [Event.isBroadcast] at hb
        | drain d => simp [Event.isBroadcast] at hb
        | broadcast m =>
          simp only [Hub.step, Hub.broadcast_of_inv m h hinv, Except.ok.injEq] at hs
          subst hs
          simp only [registeredLast]
          by_cases hev : c ∈ h.connections ∧ h.full c
          · have hc1 : ((h.fanOut m h.connections).send c).closed = true := by
              rw [Hub.fanOut_send_full m h c hev.1 hev.2]
            have hc2 := hcl c hc1
            simp [hc2]
          · have hiff : c ∈ (h.fanOut m h.connections).connections ↔ c ∈ h.connections := by
              rw [Hub.mem_fanOut]
              exact ⟨fun hx => hx.1, fun hx => ⟨hx, fun hf => hev ⟨hx, hf⟩⟩⟩
            simp only [hiff]

set_option maxRecDepth 100000 in
/-- C4 (as stated it fails): the connection 7 is registered by the only register event and
never unregistered, and every register event is admitted; after the register event alone 7
is a member, after the same event followed by 257 broadcasts (one more than the capacity 256
of the queue) 7 is not a member. -/
theorem interleaved_broadcasts_evict_member :
    (NewHub : Hub String).admissible
        (Event.register 7 :: List.replicate 257 (Event.broadcast "x")) = true ∧
      registeredLast 7 (Event.register 7 :: List.replicate 257 (Event.broadcast "x")) false
        = true ∧
      ((NewHub : Hub String).run [Event.register 7]).toOption.map Hub.connections
        = some [7] ∧
      ((NewHub : Hub String).run
        (Event.register 7 :: List.replicate 257 (Event.broadcast "x"))).toOption.map
          Hub.connections = some [] := by
  decide


/-- C4 (amended): from a fresh hub, for every list of register, unregister, broadcast and
drain events in which each register event carries a connection whose queue is open, the
run ends without a panic, the registry holds no connection twice, and a connection is a
member iff the last register or unregister event naming it is a register and its queue is
still open (no broadcast has evicted it since).  When the list has no broadcast event, a
connection is a member iff the last register or unregister event naming it is a register. -/
theorem membership_after_events {α : Type} (evs : List (Event α)) (h0 : Hub α)
    (hf : h0.Fresh) (ha : h0.admissible evs = true) :
    ∃ h, h0.run evs = .ok h ∧ h.connections.Nodup ∧
      (∀ c, c ∈ h.connections ↔
        registeredLast c evs false = true ∧ (h.send c).closed = false) ∧
      ((∀ e ∈ evs, e.isBroadcast = false) →
        ∀ c, c ∈ h.connections ↔ registeredLast c evs false = true) := by
  obtain ⟨h, hrun, hinv, hmem⟩ := Hub.run_membership evs h0 (Hub.fresh_inv hf) ha
  have hdec : ∀ c, decide (c ∈ h0.connections) = false := by
    intro c
    simp [hf.1]
  refine ⟨h, hrun, hinv.1, ?_, ?_⟩
  · intro c
    rw [hmem c, hdec c]
  · intro hnb c
    rw [Hub.run_membership_plain c evs h0 h hnb hrun, hdec c]

theorem membership_after_events_witness :
    (NewHub : Hub String).Fresh ∧
    (NewHub : Hub String).admissible
      [.register 1, .register 2, .broadcast "x", .unregister 1, .register 2, .register 3,
        .drain 2, .unregister 3] = true ∧
    ∃ h, (NewHub : Hub String).run
        [.register 1, .register 2, .broadcast "x", .unregister 1, .register 2, .register 3,
          .drain 2, .unregister 3] = .ok h ∧ h.connections.Nodup ∧
      (∀ c, c ∈ h.connections ↔
        registeredLast c
          [.register 1, .register 2, (.broadcast "x" : Event String), .unregister 1,
            .register 2, .register 3, .drain 2, .unregister 3] false = true ∧
          (h.send c).closed = false) ∧
      ((∀ e ∈ [.register 1, .register 2, (.broadcast "x" : Event String), .unregister 1,
            .register 2, .register 3, .drain 2, .unregister 3], e.isBroadcast = false) →
        ∀ c, c ∈ h.connections ↔
          registeredLast c
            [.register 1, .register 2, (.broadcast "x" : Event String), .unregister 1,
              .register 2, .register 3, .drain 2, .unregister 3] false = true) :=
  ⟨⟨rfl, fun _ => ⟨rfl, rfl⟩⟩, by decide,
    membership_after_events _ NewHub ⟨rfl, fun _ => ⟨rfl, rfl⟩⟩ (by decide)⟩

/-! ## Unregister -/

/-- C5: unregistering a connection that is not in the registry returns the same hub state
and no panic; after an unregister of `c` that returned a state, `c` is not in the registry
and a second unregister of `c` returns that same state (the channel is not closed again);
and processing two unregister events for `c` gives exactly the result of processing one. -/
theorem unregister_idempotent {α : Type} (h : Hub α) (c : Conn) :
    (c ∉ h.connections → h.unregister c = .ok h) ∧
    (∀ h1, h.unregister c = .ok h1 → c ∉ h1.connections ∧ h1.unregister c = .ok h1) ∧
    h.run [.unregister c, .unregister c] = h.run [.unregister c] := by
  have hsecond : ∀ h1, h.unregister c = .ok h1 →
      c ∉ h1.connections ∧ h1.unregister c = .ok h1 := by
    intro h1 hu
    have hc : c ∉ h1.connections := by
      rw [Hub.unregister_ok_connections c h h1 hu]
      simp [List.mem_filter]
    exact ⟨hc, Hub.unregister_absent c h1 hc⟩
  refine ⟨Hub.unregister_absent c h, hsecond, ?_⟩
  simp only [Hub.run, Hub.step]
  cases hu : h.unregister c with
  | error p => rfl
  | ok h1 => simp [(hsecond h1 hu).2]

theorem unregister_idempotent_witness :
    9 ∉ threeStalled.connections ∧ threeStalled.unregister 9 = .ok threeStalled ∧
    (∀ h1, threeStalled.unregister 2 = .ok h1 →
      2 ∉ h1.connections ∧ h1.unregister 2 = .ok h1) ∧
    threeStalled.run [.unregister 2, .unregister 2] = threeStalled.run [.unregister 2] :=
  ⟨by decide, (unregister_idempotent threeStalled 9).1 (by decide),
    (unregister_idempotent threeStalled 2).2.1, (unregister_idempotent threeStalled 2).2.2⟩


/-- C10: in a hub state that satisfies the invariant, unregistering a registered connection
`c` returns a state and no panic; the registry is the old one without `c`, every other
connection keeps its membership, the channel of `c` is closed with the same queued payloads
and capacity, and the channel of every other connection is unchanged. -/
theorem unregister_frame {α : Type} (h : Hub α) (c : Conn) (hinv : h.Inv)
    (hc : c ∈ h.connections) :
    ∃ h1, h.unregister c = .ok h1 ∧ c ∉ h1.connections ∧
      h1.connections = h.connections.filter (fun d => d ≠ c) ∧
      (∀ d, d ≠ c → (d ∈ h1.connections ↔ d ∈ h.connections)) ∧
      (h1.send c).closed = true ∧ (h1.send c).buf = (h.send c).buf ∧
      (h1.send c).cap = (h.send c).cap ∧
      ∀ d, d ≠ c → h1.send d = h.send d := by
  refine ⟨_, Hub.unregister_present c h hc (hinv.2 c hc), ?_, rfl, ?_, ?_, ?_, ?_, ?_⟩
  · simp [List.mem_filter]
  · intro d hdc
    simp [List.mem_filter, hdc]
  · simp
  · simp
  · simp
  · intro d hdc
    simp [hdc]

theorem unregister_frame_witness :
    threeStalled.Inv ∧ 2 ∈ threeStalled.connections ∧
    ∃ h1, threeStalled.unregister 2 = .ok h1 ∧ 2 ∉ h1.connections ∧
      h1.connections = threeStalled.connections.filter (fun d => d ≠ 2) ∧
      (∀ d, d ≠ 2 → (d ∈ h1.connections ↔ d ∈ threeStalled.connections)) ∧
      (h1.send 2).closed = true ∧ (h1.send 2).buf = (threeStalled.send 2).buf ∧
      (h1.send 2).cap = (threeStalled.send 2).cap ∧
      ∀ d, d ≠ 2 → h1.send d = threeStalled.send d :=
  ⟨by decide, by decide, unregister_frame threeStalled 2 (by decide) (by decide)⟩

/-! ## Isolation of subscribers -/

/-- C6: for two hub states that satisfy the invariant and agree on connection `c` (same
membership, same queued payloads, same capacity of the queue) but are arbitrary otherwise,
a broadcast of `m` (each in any iteration order) ends without a panic in both, and the
outcome for `c` is the same in both: same membership and same queued payloads. -/
theorem broadcast_outcome_independent_of_others {α : Type} (h1 h2 : Hub α) (m : α)
    (o1 o2 : List Conn) (c : Conn) (hinv1 : h1.Inv) (hinv2 : h2.Inv)
    (hp1 : o1.Perm h1.connections) (hp2 : o2.Perm h2.connections)
    (hmem : c ∈ h1.connections ↔ c ∈ h2.connections)
    (hbuf : (h1.send c).buf = (h2.send c).buf) (hcap : (h1.send c).cap = (h2.send c).cap) :
    ∃ r1 r2, h1.broadcastOver m o1 = .ok r1 ∧ h2.broadcastOver m o2 = .ok r2 ∧
      (c ∈ r1.connections ↔ c ∈ r2.connections) ∧ (r1.send c).buf = (r2.send c).buf := by
  refine ⟨_, _, Hub.broadcastOver_of_inv m o1 h1 hinv1 hp1,
    Hub.broadcastOver_of_inv m o2 h2 hinv2 hp2, ?_, ?_⟩
  · rw [Hub.mem_fanOut, Hub.mem_fanOut, hmem]
    simp only [Hub.full, hbuf, hcap]
  · by_cases hc1 : c ∈ h1.connections
    · have hc2 := hmem.mp hc1
      by_cases hf1 : h1.full c
      · have hf2 : h2.full c := by
          simp only [Hub.full, hbuf, hcap] at hf1
          exact hf1
        rw [Hub.fanOut_send_full m h1 c hc1 hf1, Hub.fanOut_send_full m h2 c hc2 hf2]
        exact hbuf
      · have hf2 : ¬ h2.full c := by
          simp only [Hub.full, hbuf, hcap] at hf1
          exact hf1
        rw [Hub.fanOut_send_free m h1 c hc1 hf1, Hub.fanOut_send_free m h2 c hc2 hf2]
        simp [hbuf]
    · have hc2 : c ∉ h2.connections := fun hx => hc1 (hmem.mpr hx)
      rw [Hub.fanOut_send_absent m h1 c hc1, Hub.fanOut_send_absent m h2 c hc2]
      exact hbuf

theorem broadcast_outcome_independent_of_others_witness :
    threeIdle.Inv ∧ threeStalled.Inv ∧
    (3 ∈ threeIdle.connections ↔ 3 ∈ threeStalled.connections) ∧
    ∃ r1 r2, threeIdle.broadcastOver "y" [1, 2, 3] = .ok r1 ∧
      threeStalled.broadcastOver "y" [2, 3, 1] = .ok r2 ∧
      (3 ∈ r1.connections ↔ 3 ∈ r2.connections) ∧ (r1.send 3).buf = (r2.send 3).buf :=
  ⟨by decide, by decide, by decide,
    broadcast_outcome_independent_of_others threeIdle threeStalled "y" [1, 2, 3] [2, 3, 1] 3
      (by decide) (by decide) (by decide) (by decide) (by decide) (by decide) (by decide)⟩

/-! ## Register -/

/-- C9: in a hub state that satisfies the invariant, registering a connection `c` whose
queue is open makes `c` a member, keeps the membership of every other connection and the
channel of every connection (that of `c` included) as they were, and keeps the invariant;
a following broadcast of `m` (in any iteration order), when the queue of `c` has a free
slot, ends without a panic with `c` still registered and `m` at the tail of the queue of
`c`; registering a connection that is already a member returns the same state. -/
theorem register_makes_visible {α : Type} (h : Hub α) (c : Conn) (hinv : h.Inv)
    (ho : (h.send c).closed = false) :
    c ∈ (h.register c).connections ∧
    (∀ d, d ≠ c → (d ∈ (h.register c).connections ↔ d ∈ h.connections)) ∧
    (h.register c).send = h.send ∧ (h.register c).Inv ∧
    (∀ (m : α) (order : List Conn), order.Perm (h.register c).connections → ¬ h.full c →
      ∃ h1, (h.register c).broadcastOver m order = .ok h1 ∧ c ∈ h1.connections ∧
        (h1.send c).buf = (h.send c).buf ++ [m]) ∧
    (c ∈ h.connections → h.register c = h) := by
  have hc : c ∈ (h.register c).connections := (Hub.mem_register c c h).mpr (Or.inl rfl)
  have hinv1 := Hub.register_inv c h hinv ho
  refine ⟨hc, ?_, Hub.register_send c h, hinv1, ?_, ?_⟩
  · intro d hdc
    rw [Hub.mem_register]
    simp [hdc]
  · intro m order hp hnf
    have hnf1 : ¬ (h.register c).full c := by
      simp only [Hub.full, Hub.register_send]
      exact hnf
    refine ⟨_, Hub.broadcastOver_of_inv m order _ hinv1 hp,
      (Hub.mem_fanOut m _ c).mpr ⟨hc, hnf1⟩, ?_⟩
    rw [Hub.fanOut_send_free m _ c hc hnf1, Hub.register_send]
  · intro hmem
    simp [Hub.register, hmem]

theorem register_makes_visible_witness :
    threeStalled.Inv ∧ (threeStalled.send 7).closed = false ∧
    7 ∈ (threeStalled.register 7).connections ∧
    (∀ d, d ≠ 7 →
      (d ∈ (threeStalled.register 7).connections ↔ d ∈ threeStalled.connections)) ∧
    (threeStalled.register 7).send = threeStalled.send ∧ (threeStalled.register 7).Inv ∧
    (∀ (m : String) (order : List Conn),
      order.Perm (threeStalled.register 7).connections → ¬ threeStalled.full 7 →
      ∃ h1, (threeStalled.register 7).broadcastOver m order = .ok h1 ∧ 7 ∈ h1.connections ∧
        (h1.send 7).buf = (threeStalled.send 7).buf ++ [m]) ∧
    (7 ∈ threeStalled.connections → threeStalled.register 7 = threeStalled) :=
  ⟨by decide, by decide, register_makes_visible threeStalled 7 (by decide) (by decide)⟩


/-! ## Reachable states -/

theorem Hub.run_reachable {α : Type} (es : List (Event α)) :
    ∀ h h1 : Hub α, Reachable h → h.admissible es = true → h.run es = .ok h1 →
      Reachable h1 := by
  induction es with
  | nil =>
    intro h h1 hr _ hrun
    simp only [Hub.run, Except.ok.injEq] at hrun
    exact hrun ▸ hr
  | cons e es ih =>
    intro h h1 hr ha hrun
    simp only [Hub.run] at hrun
    split at hrun
    · cases hrun
    · rename_i h2 hs
      obtain ⟨hadm, ha2⟩ := Hub.admissible_cons e es h h2 ha hs
      refine ih h2 h1 ?_ ha2 hrun
      cases e with
      | register c =>
        simp only [Hub.step, Except.ok.injEq] at hs
        subst hs
        exact Reachable.register h c hr (by simpa [Event.admitted] using hadm)
      | unregister c => exact Reachable.unregister h h2 c hr hs
      | broadcast m => exact Reachable.broadcast h h2 m h.connections hr (List.Perm.refl _) hs
      | drain c =>
        simp only [Hub.step, Except.ok.injEq] at hs
        subst hs
        exact Reachable.drain h c hr

theorem stalledTwo_reachable : Reachable stalledTwo :=
  Reachable.drain _ 1
    (Reachable.broadcast ((freshOne.register 1).register 2) _ "x" [2, 1]
      (Reachable.register _ 2
        (Reachable.register _ 1 (Reachable.init freshOne ⟨rfl, fun _ => ⟨rfl, rfl⟩⟩) rfl) rfl)
      (by decide)
      (Hub.broadcastOver_eq_fanOut "x" [2, 1] _ (by decide) (by decide)))

/-- C7: in every reachable hub state, a connection whose queue is closed is not in the
registry.  Consequently a broadcast (in any iteration order) ends without a panic, in a
reachable state, and leaves every closed channel exactly as it was (nothing is sent on a
closed channel); and an unregister of any connection ends without a panic, in a reachable
state, and leaves every closed channel exactly as it was (no channel is closed twice). -/
theorem closed_queue_never_registered {α : Type} (h : Hub α) (hr : Reachable h) :
    (∀ c, (h.send c).closed = true → c ∉ h.connections) ∧
    (∀ (m : α) (order : List Conn), order.Perm h.connections →
      ∃ h1, h.broadcastOver m order = .ok h1 ∧ Reachable h1 ∧
        ∀ c, (h.send c).closed = true → h1.send c = h.send c) ∧
    (∀ c, ∃ h1, h.unregister c = .ok h1 ∧ Reachable h1 ∧
        ∀ d, (h.send d).closed = true → h1.send d = h.send d) := by
  have hinv := hr.hub_inv
  have habs : ∀ c, (h.send c).closed = true → c ∉ h.connections := by
    intro c hc hmem
    rw [hinv.2 c hmem] at hc
    cases hc
  refine ⟨habs, ?_, ?_⟩
  · intro m order hp
    have hb := Hub.broadcastOver_of_inv m order h hinv hp
    refine ⟨_, hb, Reachable.broadcast h _ m order hr hp hb, ?_⟩
    intro c hc
    exact Hub.fanOut_send_absent m h c (habs c hc)
  · intro c
    obtain ⟨h1, hu, _, _, hsend⟩ := Hub.unregister_of_inv c h hinv
    refine ⟨h1, hu, Reachable.unregister h h1 c hr hu, ?_⟩
    intro d hd
    rw [hsend d]
    split
    · rename_i hdc
      exact absurd hdc.2 (hdc.1 ▸ habs d hd)
    · rfl

theorem closed_queue_never_registered_witness :
    (∀ c, (stalledTwo.send c).closed = true → c ∉ stalledTwo.connections) ∧
    (∀ (m : String) (order : List Conn), order.Perm stalledTwo.connections →
      ∃ h1, stalledTwo.broadcastOver m order = .ok h1 ∧ Reachable h1 ∧
        ∀ c, (stalledTwo.send c).closed = true → h1.send c = stalledTwo.send c) ∧
    (∀ c, ∃ h1, stalledTwo.unregister c = .ok h1 ∧ Reachable h1 ∧
        ∀ d, (stalledTwo.send d).closed = true → h1.send d = stalledTwo.send d) :=
  closed_queue_never_registered stalledTwo stalledTwo_reachable

/-- C8: in every reachable hub state, with any number of registered subscribers and any mix
of full and non-full queues, a broadcast of `m` (in any iteration order) returns a hub
state and no panic.  In that state the members are the old members whose queue had a free
slot; each of them has `m` at the tail of its queue; each old member whose queue was full
has its channel closed, with its queued payloads unchanged, and is not a member; every
connection that was not a member is unchanged. -/
theorem broadcast_never_fails {α : Type} (h : Hub α) (hr : Reachable h) (m : α)
    (order : List Conn) (hp : order.Perm h.connections) :
    ∃ h1, h.broadcastOver m order = .ok h1 ∧
      (∀ c, c ∈ h1.connections ↔ c ∈ h.connections ∧ ¬ h.full c) ∧
      (∀ c, c ∈ h.connections → ¬ h.full c →
        h1.send c = { h.send c with buf := (h.send c).buf ++ [m] }) ∧
      (∀ c, c ∈ h.connections → h.full c → h1.send c = { h.send c with closed := true }) ∧
      (∀ c, c ∉ h.connections → h1.send c = h.send c) := by
  have hinv := hr.hub_inv
  exact ⟨_, Hub.broadcastOver_of_inv m order h hinv hp, Hub.mem_fanOut m h,
    fun c hc hf => Hub.fanOut_send_free m h c hc hf,
    fun c hc hf => Hub.fanOut_send_full m h c hc hf,
    fun c hc => Hub.fanOut_send_absent m h c hc⟩

theorem broadcast_never_fails_witness :
    Reachable stalledTwo ∧ stalledTwo.full 2 ∧ ¬ stalledTwo.full 1 ∧
    ∃ h1, stalledTwo.broadcastOver "y" [1, 2] = .ok h1 ∧
      (∀ c, c ∈ h1.connections ↔ c ∈ stalledTwo.connections ∧ ¬ stalledTwo.full c) ∧
      (∀ c, c ∈ stalledTwo.connections → ¬ stalledTwo.full c →
        h1.send c = { stalledTwo.send c with buf := (stalledTwo.send c).buf ++ ["y"] }) ∧
      (∀ c, c ∈ stalledTwo.connections → stalledTwo.full c →
        h1.send c = { stalledTwo.send c with closed := true }) ∧
      (∀ c, c ∉ stalledTwo.connections → h1.send c = stalledTwo.send c) :=
  ⟨stalledTwo_reachable, by decide, by decide,
    broadcast_never_fails stalledTwo stalledTwo_reachable "y" [1, 2] (by decide)⟩


/-! ## Bounded queues -/

theorem Hub.unregister_ok_send {α : Type} (c : Conn) (h h1 : Hub α)
    (hu : h.unregister c = .ok h1) (d : Conn) :
    (h1.send d).cap = (h.send d).cap ∧ (h1.send d).buf = (h.send d).buf := by
  by_cases hc : c ∈ h.connections
  · cases ho : (h.send c).closed with
    | true =>
      rw [Hub.unregister_present_closed c h hc ho] at hu
      cases hu
    | false =>
      rw [Hub.unregister_present c h hc ho] at hu
      cases hu
      by_cases hdc : d = c
      · subst hdc; simp
      · simp [hdc]
  · rw [Hub.unregister_absent c h hc] at hu
    cases hu
    exact ⟨rfl, rfl⟩

theorem Hub.deliver_cap_bound {α : Type} (m : α) (c : Conn) (h h1 : Hub α)
    (hd : h.deliver m c = .ok h1) (d : Conn) :
    (h1.send d).cap = (h.send d).cap ∧
      ((h.send d).buf.length ≤ (h.send d).cap → (h1.send d).buf.length ≤ (h.send d).cap) := by
  unfold Hub.deliver at hd
  split at hd
  · cases hd
  · rename_i ch hsend
    cases hd
    unfold Chan.trySend at hsend
    split at hsend
    · cases hsend
    · split at hsend
      · rename_i hlt
        cases hsend
        by_cases hdc : d = c
        · subst hdc
          simp only [Hub.setSend, if_true, List.length_append, List.length_cons,
            List.length_nil, true_and]
          intro _
          omega
        · simp [Hub.setSend, hdc]
      · cases hsend
  · have hu := Hub.unregister_ok_send c h h1 hd d
    rw [hu.1, hu.2]
    exact ⟨rfl, fun hb => hb⟩

theorem Hub.broadcastOver_cap_bound {α : Type} (m : α) (order : List Conn) :
    ∀ h h1 : Hub α, h.broadcastOver m order = .ok h1 → ∀ d,
      (h1.send d).cap = (h.send d).cap ∧
        ((h.send d).buf.length ≤ (h.send d).cap →
          (h1.send d).buf.length ≤ (h.send d).cap) := by
  induction order with
  | nil =>
    intro h h1 hb d
    simp only [Hub.broadcastOver, Except.ok.injEq] at hb
    subst hb
    exact ⟨rfl, fun hx => hx⟩
  | cons c rest ih =>
    intro h h1 hb d
    simp only [Hub.broadcastOver] at hb
    split at hb
    · split at hb
      · cases hb
      · rename_i h2 hdel
        have h12 := Hub.deliver_cap_bound m c h h2 hdel d
        have h21 := ih h2 h1 hb d
        refine ⟨h21.1.trans h12.1, fun hx => ?_⟩
        have := h21.2 (h12.1 ▸ h12.2 hx)
        rw [h12.1] at this
        exact this
    · exact ih h h1 hb d

theorem Hub.drain_cap_bound {α : Type} (c : Conn) (h : Hub α) (d : Conn) :
    ((h.drain c).send d).cap = (h.send d).cap ∧
      ((h.send d).buf.length ≤ (h.send d).cap →
        ((h.drain c).send d).buf.length ≤ (h.send d).cap) := by
  unfold Hub.drain
  split
  · exact ⟨rfl, fun hx => hx⟩
  · rename_i x ch hrecv
    by_cases hdc : d = c
    · subst hdc
      simp only [Hub.setSend, if_true]
      unfold Chan.recv at hrecv
      split at hrecv
      · cases hrecv
      · rename_i y ys hbuf
        cases hrecv
        simp only [hbuf, List.length_cons, true_and]
        intro _
        omega
    · simp [Hub.setSend, hdc]

theorem Hub.step_cap_bound {α : Type} (e : Event α) (h h1 : Hub α) (hs : h.step e = .ok h1)
    (d : Conn) :
    (h1.send d).cap = (h.send d).cap ∧
      ((h.send d).buf.length ≤ (h.send d).cap → (h1.send d).buf.length ≤ (h.send d).cap) := by
  cases e with
  | register c =>
    simp only [Hub.step, Except.ok.injEq] at hs
    subst hs
    rw [Hub.register_send]
    exact ⟨rfl, fun hx => hx⟩
  | unregister c =>
    have hu := Hub.unregister_ok_send c h h1 hs d
    rw [hu.1, hu.2]
    exact ⟨rfl, fun hx => hx⟩
  | broadcast m => exact Hub.broadcastOver_cap_bound m h.connections h h1 hs d
  | drain c =>
    simp only [Hub.step, Except.ok.injEq] at hs
    subst hs
    exact Hub.drain_cap_bound c h d

theorem Hub.run_cap_bound {α : Type} (es : List (Event α)) :
    ∀ h h1 : Hub α, h.run es = .ok h1 → ∀ d,
      (h1.send d).cap = (h.send d).cap ∧
        ((h.send d).buf.length ≤ (h.send d).cap →
          (h1.send d).buf.length ≤ (h.send d).cap) := by
  induction es with
  | nil =>
    intro h h1 hrun d
    simp only [Hub.run, Except.ok.injEq] at hrun
    subst hrun
    exact ⟨rfl, fun hx => hx⟩
  | cons e es ih =>
    intro h h1 hrun d
    simp only [Hub.run] at hrun
    split at hrun
    · cases hrun
    · rename_i h2 hs
      have h12 := Hub.step_cap_bound e h h2 hs d
      have h21 := ih h2 h1 hrun d
      refine ⟨h21.1.trans h12.1, fun hx => ?_⟩
      have := h21.2 (h12.1 ▸ h12.2 hx)
      rw [h12.1] at this
      exact this

theorem Reachable.bounded {α : Type} {h : Hub α} (hr : Reachable h) (c : Conn) :
    (h.send c).buf.length ≤ (h.send c).cap := by
  induction hr with
  | init h hf => simp [(hf.2 c).1]
  | register h d _ _ ih => rw [Hub.register_send]; exact ih
  | unregister h h1 d _ hu ih =>
    have := Hub.unregister_ok_send d h h1 hu c
    rw [this.1, this.2]
    exact ih
  | broadcast h h1 m order _ _ hb ih =>
    have := Hub.broadcastOver_cap_bound m order h h1 hb c
    rw [this.1]
    exact this.2 ih
  | drain h d _ ih =>
    have := Hub.drain_cap_bound d h c
    rw [this.1]
    exact this.2 ih

theorem Hub.admissible_broadcasts {α : Type} (ps : List α) :
    ∀ h : Hub α, h.admissible (ps.map Event.broadcast) = true := by
  induction ps with
  | nil => intro h; rfl
  | cons p ps ih =>
    intro h
    simp only [List.map_cons, Hub.admissible, Event.admitted, Bool.true_and]
    split
    · rfl
    · exact ih _


theorem servedSeven_reachable : Reachable servedSeven :=
  Reachable.register _ 7 (Reachable.init NewHub ⟨rfl, fun _ => ⟨rfl, rfl⟩⟩) rfl

/-- C13: in every reachable hub state (from a fresh hub whose connections were created
with an empty queue, by register, unregister, broadcast and drain events) the number of
payloads in the queue of each connection is at most the capacity of that queue.  No run of
events changes the capacity of a queue or takes a queue above it, and any number of
broadcasts in a row (no drain in between) is processed without a panic and leaves every
queue within its capacity. -/
theorem queue_never_exceeds_capacity {α : Type} (h : Hub α) (hr : Reachable h) :
    (∀ c, (h.send c).buf.length ≤ (h.send c).cap) ∧
    (∀ (evs : List (Event α)) (h1 : Hub α), h.run evs = .ok h1 →
      ∀ c, (h1.send c).cap = (h.send c).cap ∧ (h1.send c).buf.length ≤ (h.send c).cap) ∧
    (∀ ps : List α, ∃ h1, h.run (ps.map Event.broadcast) = .ok h1 ∧
      ∀ c, (h1.send c).cap = (h.send c).cap ∧ (h1.send c).buf.length ≤ (h.send c).cap) := by
  have hb : ∀ c, (h.send c).buf.length ≤ (h.send c).cap := fun c => hr.bounded c
  have hrun : ∀ (evs : List (Event α)) (h1 : Hub α), h.run evs = .ok h1 →
      ∀ c, (h1.send c).cap = (h.send c).cap ∧ (h1.send c).buf.length ≤ (h.send c).cap := by
    intro evs h1 hr1 c
    have := Hub.run_cap_bound evs h h1 hr1 c
    exact ⟨this.1, this.2 (hb c)⟩
  refine ⟨hb, hrun, ?_⟩
  intro ps
  obtain ⟨h1, hr1, _⟩ := Hub.run_of_inv (ps.map Event.broadcast) h hr.hub_inv
    (Hub.admissible_broadcasts ps h)
  exact ⟨h1, hr1, hrun _ h1 hr1⟩

theorem queue_never_exceeds_capacity_witness :
    Reachable servedSeven ∧ (servedSeven.send 7).cap = 256 ∧
    (∀ c, (servedSeven.send c).buf.length ≤ (servedSeven.send c).cap) ∧
    ∃ h1, servedSeven.run ((List.replicate 300 "x").map Event.broadcast) = .ok h1 ∧
      ∀ c, (h1.send c).cap = (servedSeven.send c).cap ∧
        (h1.send c).buf.length ≤ (servedSeven.send c).cap :=
  ⟨servedSeven_reachable, rfl,
    (queue_never_exceeds_capacity servedSeven servedSeven_reachable).1,
    (queue_never_exceeds_capacity servedSeven servedSeven_reachable).2.2
      (List.replicate 300 "x")⟩

/-! ## Iteration order -/

theorem Hub.deliver_open_ok {α : Type} (m : α) (c : Conn) (h : Hub α)
    (hc : c ∈ h.connections) (ho : (h.send c).closed = false) :
    ∃ h1, h.deliver m c = .ok h1 ∧
      (∀ d, d ≠ c → (d ∈ h1.connections ↔ d ∈ h.connections)) ∧
      ∀ d, d ≠ c → h1.send d = h.send d := by
  by_cases hf : (h.send c).buf.length < (h.send c).cap
  · refine ⟨_, Hub.deliver_free m c h ho hf, ?_, ?_⟩
    · intro d _; rfl
    · intro d hdc; simp [Hub.setSend, hdc]
  · rw [Hub.deliver_full m c h ho hf]
    refine ⟨_, Hub.unregister_present c h hc ho, ?_, ?_⟩
    · intro d hdc; simp [List.mem_filter, hdc]
    · intro d hdc; simp [hdc]

/-- When a visited connection is registered with a closed channel, the loop panics with a
send on a closed channel, whatever the order. -/
theorem Hub.broadcastOver_closed_member {α : Type} (m : α) (order : List Conn) :
    ∀ h : Hub α, order.Nodup → (∀ d ∈ order, d ∈ h.connections) →
      (∃ c ∈ order, (h.send c).closed = true) →
      h.broadcastOver m order = .error .sendOnClosed := by
  induction order with
  | nil =>
    intro h _ _ hex
    obtain ⟨c, hc, _⟩ := hex
    cases hc
  | cons d rest ih =>
    intro h hnd hall hex
    have hdr : d ∉ rest := (List.nodup_cons.mp hnd).1
    have hd : d ∈ h.connections := hall d (List.mem_cons_self d rest)
    cases ho : (h.send d).closed with
    | true =>
      simp [Hub.broadcastOver, hd, Hub.deliver, Chan.trySend_closed _ m ho]
    | false =>
      obtain ⟨h1, hdel, hmem, hsend⟩ := Hub.deliver_open_ok m d h hd ho
      simp only [Hub.broadcastOver, hd, if_true, hdel]
      apply ih h1 (List.nodup_cons.mp hnd).2
      · intro e he
        have hed : e ≠ d := fun hed => hdr (hed ▸ he)
        exact (hmem e hed).mpr (hall e (List.mem_cons_of_mem d he))
      · obtain ⟨c, hc, hcl⟩ := hex
        rcases List.mem_cons.mp hc with hcd | hcr
        · rw [hcd, ho] at hcl
          cases hcl
        · have hcd : c ≠ d := fun hcd => hdr (hcd ▸ hcr)
          exact ⟨c, hcr, by rw [hsend c hcd]; exact hcl⟩

theorem Hub.broadcastOver_of_nodup {α : Type} (m : α) (order : List Conn) (h : Hub α)
    (hnd : h.connections.Nodup) (hp : order.Perm h.connections) :
    h.broadcastOver m order =
      if ∀ c ∈ h.connections, (h.send c).closed = false then
        .ok (h.fanOut m h.connections)
      else .error .sendOnClosed := by
  split
  · rename_i hopen
    exact Hub.broadcastOver_of_inv m order h ⟨hnd, hopen⟩ hp
  · rename_i hopen
    push_neg at hopen
    obtain ⟨c, hc, hcl⟩ := hopen
    apply Hub.broadcastOver_closed_member m order h (hp.nodup_iff.mpr hnd)
      (fun d hd => hp.mem_iff.mp hd)
    exact ⟨c, hp.mem_iff.mpr hc, by simpa using hcl⟩

/-- C15: for every hub state whose registry holds each connection once (the keys of a map),
every payload and every two enumeration orders of the registered connections, the fan-out
loop gives the same result in both orders: the same panic or the same final state, that
is the same registry and the same contents and closed flag of every queue.  Under the
invariant of the hub the result is a state. -/
theorem broadcast_order_independent {α : Type} (h : Hub α) (m : α) (o1 o2 : List Conn)
    (hnd : h.connections.Nodup) (hp1 : o1.Perm h.connections)
    (hp2 : o2.Perm h.connections) :
    h.broadcastOver m o1 = h.broadcastOver m o2 ∧
    ((∀ c ∈ h.connections, (h.send c).closed = false) →
      ∃ h1, h.broadcastOver m o1 = .ok h1 ∧ h.broadcastOver m o2 = .ok h1) := by
  refine ⟨?_, ?_⟩
  · rw [Hub.broadcastOver_of_nodup m o1 h hnd hp1, Hub.broadcastOver_of_nodup m o2 h hnd hp2]
  · intro hopen
    exact ⟨_, Hub.broadcastOver_of_inv m o1 h ⟨hnd, hopen⟩ hp1,
      Hub.broadcastOver_of_inv m o2 h ⟨hnd, hopen⟩ hp2⟩

theorem broadcast_order_independent_witness :
    threeStalled.connections.Nodup ∧
    threeStalled.broadcastOver "y" [2, 1, 3] = threeStalled.broadcastOver "y" [3, 1, 2] ∧
    (∃ h1, threeStalled.broadcastOver "y" [2, 1, 3] = .ok h1 ∧
      threeStalled.broadcastOver "y" [3, 1, 2] = .ok h1) ∧
    threeBroken.broadcastOver "y" [2, 1, 3] = threeBroken.broadcastOver "y" [3, 1, 2] :=
  ⟨by decide,
    (broadcast_order_independent threeStalled "y" [2, 1, 3] [3, 1, 2] (by decide) (by decide)
      (by decide)).1,
    (broadcast_order_independent threeStalled "y" [2, 1, 3] [3, 1, 2] (by decide) (by decide)
      (by decide)).2 (by decide),
    (broadcast_order_independent threeBroken "y" [2, 1, 3] [3, 1, 2] (by decide) (by decide)
      (by decide)).1⟩


/-! ## The origin check -/

theorem strings.Split_ne_nil (s : GoString) (sep : Char) : strings.Split s sep ≠ [] := by
  cases s with
  | nil => simp [strings.Split]
  | cons c cs =>
    unfold strings.Split
    split
    · simp
    · split <;> simp

theorem strings.Split_intercalate (s : GoString) (sep : Char) :
    [sep].intercalate (strings.Split s sep) = s := by
  induction s with
  | nil => simp [strings.Split, List.intercalate]
  | cons c cs ih =>
    unfold strings.Split
    have hne := strings.Split_ne_nil cs sep
    split
    · rename_i hc
      cases hsp : strings.Split cs sep with
      | nil => exact absurd hsp hne
      | cons e es =>
        rw [hsp] at ih
        simp only [List.intercalate, List.intersperse, List.flatten, List.nil_append,
          List.singleton_append] at ih ⊢
        rw [ih, hc]
    · cases hsp : strings.Split cs sep with
      | nil => exact absurd hsp hne
      | cons e es =>
        rw [hsp] at ih
        cases es with
        | nil =>
          simp only [List.intercalate, List.intersperse, List.flatten, List.append_nil] at ih ⊢
          rw [ih]
        | cons e2 es2 =>
          simp only [List.intercalate, List.intersperse, List.flatten, List.cons_append] at ih ⊢
          rw [ih]

theorem strings.Split_no_sep (s : GoString) (sep : Char) :
    ∀ e ∈ strings.Split s sep, sep ∉ e := by
  induction s with
  | nil => simp [strings.Split]
  | cons c cs ih =>
    unfold strings.Split
    split
    · intro e he
      rcases List.mem_cons.mp he with h0 | h1
      · rw [h0]; simp
      · exact ih e h1
    · rename_i hc
      cases hsp : strings.Split cs sep with
      | nil => simp [Ne.symm hc]
      | cons e1 es =>
        rw [hsp] at ih
        intro e he
        rcases List.mem_cons.mp he with h0 | h1
        · rw [h0]
          intro hmem
          rcases List.mem_cons.mp hmem with h2 | h3
          · exact hc h2.symm
          · exact ih e1 (List.mem_cons_self e1 es) h3
        · exact ih e (List.mem_cons_of_mem e1 h1)


theorem strings.TrimSpace_decompose (s : GoString) :
    ∃ pre post, s = pre ++ strings.TrimSpace s ++ post ∧
      (∀ c ∈ pre, unicode.IsSpace c = true) ∧ (∀ c ∈ post, unicode.IsSpace c = true) := by
  refine ⟨s.takeWhile unicode.IsSpace,
    (((s.dropWhile unicode.IsSpace).reverse).takeWhile unicode.IsSpace).reverse, ?_, ?_, ?_⟩
  · have h1 := List.takeWhile_append_dropWhile unicode.IsSpace s
    have h2 := List.takeWhile_append_dropWhile unicode.IsSpace
      (s.dropWhile unicode.IsSpace).reverse
    have h3 : s.dropWhile unicode.IsSpace =
        strings.TrimSpace s ++
          (((s.dropWhile unicode.IsSpace).reverse).takeWhile unicode.IsSpace).reverse := by
      have h4 := congrArg List.reverse h2
      rw [List.reverse_append, List.reverse_reverse] at h4
      exact h4.symm
    rw [List.append_assoc, ← h3, h1]
  · intro c hc
    exact List.mem_takeWhile_imp hc
  · intro c hc
    exact List.mem_takeWhile_imp (List.mem_reverse.mp hc)

theorem strings.TrimSpace_last (s : GoString) (c : Char)
    (hc : (strings.TrimSpace s).getLast? = some c) : unicode.IsSpace c = false := by
  unfold strings.TrimSpace at hc
  rw [List.getLast?_reverse] at hc
  have := List.head?_dropWhile_not unicode.IsSpace (s.dropWhile unicode.IsSpace).reverse
  rw [hc] at this
  simpa using this

theorem strings.TrimSpace_head (s : GoString) (c : Char)
    (hc : (strings.TrimSpace s).head? = some c) : unicode.IsSpace c = false := by
  have h3 : s.dropWhile unicode.IsSpace =
      strings.TrimSpace s ++
        (((s.dropWhile unicode.IsSpace).reverse).takeWhile unicode.IsSpace).reverse := by
    have h2 := List.takeWhile_append_dropWhile unicode.IsSpace
      (s.dropWhile unicode.IsSpace).reverse
    have h4 := congrArg List.reverse h2
    rw [List.reverse_append, List.reverse_reverse] at h4
    exact h4.symm
  have hhead := List.head?_dropWhile_not unicode.IsSpace s
  rw [h3] at hhead
  cases ht : strings.TrimSpace s with
  | nil => rw [ht] at hc; cases hc
  | cons x xs =>
    rw [ht] at hc hhead
    simp only [List.head?_cons, Option.some.injEq] at hc
    simp only [List.cons_append, List.head?_cons] at hhead
    rw [← hc]
    exact hhead

theorem NewHub.originListed_iff (origin : GoString) (l : List GoString) :
    NewHub.originListed origin l = true ↔ ∃ allowed ∈ l, strings.TrimSpace allowed = origin := by
  induction l with
  | nil => simp [NewHub.originListed]
  | cons a rest ih =>
    unfold NewHub.originListed
    split
    · rename_i ha
      simp [ha]
    · rename_i ha
      rw [ih]
      simp [ha]

theorem NewHub.CheckOrigin_nonempty (corsOrigin : GoString) (r : Request)
    (hc : corsOrigin ≠ []) (ho : r.originHeader ≠ []) :
    NewHub.CheckOrigin corsOrigin r =
      NewHub.originListed r.originHeader (strings.Split corsOrigin ',') := by
  have h1 : corsOrigin.length ≠ 0 := fun h => hc (List.length_eq_zero.mp h)
  have h2 : r.originHeader.length ≠ 0 := fun h => ho (List.length_eq_zero.mp h)
  simp [NewHub.CheckOrigin, h1, h2]


/-- C11: with the empty allow-list the origin check of `NewHub("")` returns true for every
request, whatever its `Origin` header (for instance "https://anything"). -/
theorem empty_allow_list_allows_every_origin (r : Request) :
    NewHub.CheckOrigin [] r = true ∧
    NewHub.CheckOrigin "".toList { originValues := ["https://anything".toList] } = true := by
  constructor
  · simp [NewHub.CheckOrigin]
  · decide

/-- C12: for a non-empty allow-list and a non-empty `Origin` header value, the origin check
returns true iff the origin equals one of the comma-separated entries of the allow-list
once the white space around the entry is trimmed.  The entries are the pieces between the
commas: joined by commas they give the allow-list back, and none contains a comma.  The
trimmed entry is the entry without a prefix and a suffix of white space, and it neither
starts nor ends with white space. -/
theorem origin_allowed_iff_listed (corsOrigin : GoString) (r : Request)
    (hc : corsOrigin ≠ []) (ho : r.originHeader ≠ []) :
    (NewHub.CheckOrigin corsOrigin r = true ↔
      ∃ allowed ∈ strings.Split corsOrigin ',', strings.TrimSpace allowed = r.originHeader) ∧
    [','].intercalate (strings.Split corsOrigin ',') = corsOrigin ∧
    (∀ e ∈ strings.Split corsOrigin ',', ',' ∉ e) ∧
    (∀ e : GoString, ∃ pre post, e = pre ++ strings.TrimSpace e ++ post ∧
      (∀ c ∈ pre, unicode.IsSpace c = true) ∧ (∀ c ∈ post, unicode.IsSpace c = true) ∧
      (∀ c, (strings.TrimSpace e).head? = some c → unicode.IsSpace c = false) ∧
      (∀ c, (strings.TrimSpace e).getLast? = some c → unicode.IsSpace c = false)) := by
  refine ⟨?_, strings.Split_intercalate corsOrigin ',', strings.Split_no_sep corsOrigin ',', ?_⟩
  · rw [NewHub.CheckOrigin_nonempty corsOrigin r hc ho, NewHub.originListed_iff]
  · intro e
    obtain ⟨pre, post, hdec, hpre, hpost⟩ := strings.TrimSpace_decompose e
    exact ⟨pre, post, hdec, hpre, hpost, strings.TrimSpace_head e, strings.TrimSpace_last e⟩

theorem origin_allowed_iff_listed_witness :
    NewHub.CheckOrigin "https://a.com, https://b.com".toList
      { originValues := ["https://a.com".toList] } = true ∧
    NewHub.CheckOrigin "https://a.com, https://b.com".toList
      { originValues := ["https://b.com".toList] } = true ∧
    NewHub.CheckOrigin "https://a.com, https://b.com".toList
      { originValues := ["https://c.com".toList] } = false ∧
    strings.Split "https://a.com, https://b.com".toList ',' =
      ["https://a.com".toList, " https://b.com".toList] ∧
    (NewHub.CheckOrigin "https://a.com, https://b.com".toList
        { originValues := ["https://b.com".toList] } = true ↔
      ∃ allowed ∈ strings.Split "https://a.com, https://b.com".toList ',',
        strings.TrimSpace allowed =
          (Request.originHeader { originValues := ["https://b.com".toList] })) :=
  ⟨by decide, by decide, by decide, by decide,
    (origin_allowed_iff_listed "https://a.com, https://b.com".toList
      { originValues := ["https://b.com".toList] } (by decide) (by decide)).1⟩

/-- C16: for every allow-list, the origin check returns true for a request whose `Origin`
header is absent or whose value is the empty string. -/
theorem empty_origin_always_allowed (corsOrigin : GoString) (r : Request)
    (ho : r.originValues = [] ∨ r.originHeader = []) :
    NewHub.CheckOrigin corsOrigin r = true := by
  have hempty : r.originHeader = [] := by
    rcases ho with h | h
    · simp [Request.originHeader, h]
    · exact h
  simp [NewHub.CheckOrigin, hempty]

theorem empty_origin_always_allowed_witness :
    (∀ e ∈ strings.Split "https://a.com, https://b.com".toList ',', e ≠ []) ∧
    NewHub.CheckOrigin "https://a.com, https://b.com".toList { originValues := [] } = true ∧
    NewHub.CheckOrigin "https://a.com, https://b.com".toList
      { originValues := ["".toList, "https://c.com".toList] } = true :=
  ⟨by decide,
    empty_origin_always_allowed "https://a.com, https://b.com".toList { originValues := [] }
      (Or.inl rfl),
    empty_origin_always_allowed "https://a.com, https://b.com".toList
      { originValues := ["".toList, "https://c.com".toList] } (Or.inr rfl)⟩

/-! ## Configure -/

/-- C17: for every configuration `Configure` returns a configuration and no panic (the
first byte is read only from a non-empty web path); `AuthFile` and `AuthBasic` are
unchanged; the web path stays empty when it was empty, is unchanged when it began with
'/', and is "/" followed by the previous value otherwise; so afterwards it is empty or
begins with '/', and a second `Configure` returns the same configuration. -/
theorem configure_adds_leading_slash (cfg : Config) :
    ∃ cfg1, Configure cfg = .ok cfg1 ∧
      cfg1.AuthFile = cfg.AuthFile ∧ cfg1.AuthBasic = cfg.AuthBasic ∧
      (cfg.WebPath = [] → cfg1.WebPath = []) ∧
      (cfg.WebPath.head? = some '/' → cfg1.WebPath = cfg.WebPath) ∧
      (cfg.WebPath ≠ [] → cfg.WebPath.head? ≠ some '/' →
        cfg1.WebPath = '/' :: cfg.WebPath) ∧
      (cfg1.WebPath = [] ∨ cfg1.WebPath.head? = some '/') ∧
      Configure cfg1 = .ok cfg1 := by
  obtain ⟨authFile, authBasic, webPath⟩ := cfg
  cases webPath with
  | nil => exact ⟨_, rfl, rfl, rfl, fun _ => rfl, fun _ => rfl, fun h => absurd rfl h,
      Or.inl rfl, rfl⟩
  | cons c rest =>
    by_cases hc : c = '/'
    · subst hc
      refine ⟨{ AuthFile := authFile, AuthBasic := authBasic, WebPath := '/' :: rest },
        ?_, rfl, rfl, ?_, fun _ => rfl, ?_, Or.inr rfl, ?_⟩
      · simp [Configure, firstByteIs]
      · intro h; cases h
      · intro _ h; exact absurd rfl h
      · simp [Configure, firstByteIs]
    · refine ⟨{ AuthFile := authFile, AuthBasic := authBasic, WebPath := '/' :: c :: rest },
        ?_, rfl, rfl, ?_, ?_, fun _ _ => rfl, Or.inr rfl, ?_⟩
      · simp [Configure, firstByteIs, hc]
      · intro h; cases h
      · intro h
        simp only [List.head?_cons, Option.some.injEq] at h
        exact absurd h hc
      · simp [Configure, firstByteIs]

theorem configure_adds_leading_slash_witness :
    Configure mailhogConfig = .ok { mailhogConfig with WebPath := "/mailhog".toList } ∧
    Configure DefaultConfig = .ok DefaultConfig ∧
    ∃ cfg1, Configure mailhogConfig = .ok cfg1 ∧
      cfg1.AuthFile = mailhogConfig.AuthFile ∧ cfg1.AuthBasic = mailhogConfig.AuthBasic ∧
      (mailhogConfig.WebPath = [] → cfg1.WebPath = []) ∧
      (mailhogConfig.WebPath.head? = some '/' → cfg1.WebPath = mailhogConfig.WebPath) ∧
      (mailhogConfig.WebPath ≠ [] → mailhogConfig.WebPath.head? ≠ some '/' →
        cfg1.WebPath = '/' :: mailhogConfig.WebPath) ∧
      (cfg1.WebPath = [] ∨ cfg1.WebPath.head? = some '/') ∧
      Configure cfg1 = .ok cfg1 :=
  ⟨rfl, rfl, configure_adds_leading_slash mailhogConfig⟩

end MailHog
